import Mathlib

/-!
Verification of the `rustic_io` codec core: the VarInt/VarLong variable-length
integer codec (`src/datatypes/var.rs`) and the bit-packed `Position` codec
(`src/datatypes/position.rs`), shallowly embedded over `Nat`/`Int` with
machine-integer semantics made explicit (`% 2^32`, `% 2^64`, two's-complement
reinterpretation casts).
-/

namespace Rustic

/-- Reinterpret a `W`-bit unsigned pattern as a signed two's-complement value
(the Rust `as iW` cast from a pattern; applies the truncation `% 2^W` like the
narrowing cast does). -/
def intOfPattern (W : Nat) (u : Nat) : Int :=
  if u % 2 ^ W < 2 ^ (W - 1) then ((u % 2 ^ W : Nat) : Int)
  else ((u % 2 ^ W : Nat) : Int) - 2 ^ W

/-- Two's-complement `W`-bit pattern of a signed value (the Rust
`iW::to_ne_bytes` / `uW::from_ne_bytes` reinterpretation, and the `as uW`
cast). -/
def patternOfInt (W : Nat) (v : Int) : Nat :=
  (v % ((2 ^ W : Nat) : Int)).toNat

/-! ## Position codec (`position.rs`) -/

structure Position where
  x : Int
  y : Int
  z : Int
deriving DecidableEq

namespace Position

/-- Embedding of `Position::from_u64` (`position.rs:9-28`). The intermediate
`x`, `y`, `z` are the `as i32` casts of the extracted fields; the `if`
thresholds translate Rust's `2 << 25-1` (= `2 << 24`), `2 << 11-1`
(= `2 << 10`) and the subtractions translate `2 << 26-1` (= `2 << 25`),
`2 << 12-1` (= `2 << 11`), with Rust precedence `2 << (n-1)`. -/
def from_u64 (val : Nat) : Position :=
  let x : Int := intOfPattern 32 (val >>> 38)
  let y : Int := intOfPattern 32 (val &&& 0xFFF)
  let z : Int := intOfPattern 32 ((val >>> 12) &&& 0x3FFFFFF)
  let x : Int := if x ≥ ((2 <<< (25 - 1) : Nat) : Int) then x - ((2 <<< (26 - 1) : Nat) : Int) else x
  let y : Int := if y ≥ ((2 <<< (11 - 1) : Nat) : Int) then y - ((2 <<< (12 - 1) : Nat) : Int) else y
  let z : Int := if z ≥ ((2 <<< (25 - 1) : Nat) : Int) then z - ((2 <<< (26 - 1) : Nat) : Int) else z
  { x := x, y := y, z := z }

/-- Embedding of `Position::to_u64` (`position.rs:30-36`).
`(x & 0x3FFFFFF) as u64` is the nonnegative `i32` result widened (its value is
the masked 32-bit pattern), then shifted by 38 in `u64`. The `z` term mirrors
the source exactly: `(z & 0x3FFFFFF) << 12` is computed *in `i32`*
(`12 as u64` only types the shift amount), i.e. the shifted pattern is
truncated to 32 bits and reinterpreted signed, and only then cast `as u64`,
which sign-extends. `(y & 0xFFF) as u64` is the nonnegative masked value. -/
def to_u64 (p : Position) : Nat :=
  let xterm : Nat := ((patternOfInt 32 p.x &&& 0x3FFFFFF) <<< 38) % 2 ^ 64
  let zterm : Nat := patternOfInt 64 (intOfPattern 32 ((patternOfInt 32 p.z &&& 0x3FFFFFF) <<< 12))
  let yterm : Nat := patternOfInt 32 p.y &&& 0xFFF
  xterm ||| zterm ||| yterm

end Position

/-! ## VarInt / VarLong codec (`var.rs`) -/

def SEGMENT_BITS : Nat := 0x7F
def CONTINUE_BIT : Nat := 0x80

/-- Error type of the `scroll` crate as used by the codec: `TooBig` carries
`size` (the partially accumulated value cast `as usize`) and `len` (the total
input length); `badOffset` models the underlying buffer-underrun error from
`gread`/`pwrite` when the slice is exhausted. -/
inductive ScrollError where
  | tooBig (size : Nat) (len : Nat)
  | badOffset (offset : Nat)
deriving DecidableEq

/-- Shared embedding of the decode loops of `VarInt::try_from_ctx`
(`var.rs:14-40`, `W = 32`) and `VarLong::try_from_ctx` (`var.rs:74-99`,
`W = 64`). Bytes are read from the remaining input list (`gread` advances
`offset`; an exhausted slice yields the propagated buffer error). The
accumulation `value |= ((byte & SEGMENT_BITS) as iW) << byte_position` is
performed on the `W`-bit pattern (the shift truncates mod `2^W`); on the
width-overflow path the error carries `value as usize` (sign-extension of the
signed accumulator to the 64-bit pattern) and `src.len()`. -/
def varDecodeLoop (W : Nat) (srcLen : Nat) :
    List Nat → Nat → Nat → Nat → Except ScrollError (Int × Nat)
  | [], _value, _bytePosition, offset => .error (.badOffset offset)
  | byte :: rest, value, bytePosition, offset =>
    let value := value ||| ((byte &&& SEGMENT_BITS) <<< bytePosition) % 2 ^ W
    if byte &&& CONTINUE_BIT = 0 then
      .ok (intOfPattern W value, offset + 1)
    else
      let bytePosition := bytePosition + 7
      if bytePosition ≥ W then
        .error (.tooBig (patternOfInt 64 (intOfPattern W value)) srcLen)
      else
        varDecodeLoop W srcLen rest value bytePosition (offset + 1)

/-- `VarInt::try_from_ctx` (`var.rs:14-40`): decode an i32 from the byte
sequence, returning the value and the number of bytes read. -/
def VarInt.try_from_ctx (src : List Nat) : Except ScrollError (Int × Nat) :=
  varDecodeLoop 32 src.length src 0 0 0

/-- `VarLong::try_from_ctx` (`var.rs:74-99`). -/
def VarLong.try_from_ctx (src : List Nat) : Except ScrollError (Int × Nat) :=
  varDecodeLoop 64 src.length src 0 0 0

/-- Shared embedding of the encode loops of `VarInt::try_into_ctx`
(`var.rs:46-65`) and `VarLong::try_into_ctx` (`var.rs:105-124`), returning the
list of bytes written (the returned `offset` of the source is its length).
`notSegmentMask` is `!(SEGMENT_BITS as uW)`, i.e. `(2^W - 1) ^^^ SEGMENT_BITS`;
the loop emits `(value as u8 & SEGMENT_BITS) | CONTINUE_BIT` while any bit
outside the low 7 survives, then the final byte `value as u8`. -/
def varEncodeLoop (notSegmentMask : Nat) (value : Nat) : List Nat :=
  if h : value &&& notSegmentMask = 0 then
    [value &&& 0xFF]
  else
    (((value &&& 0xFF) &&& SEGMENT_BITS) ||| CONTINUE_BIT) :: varEncodeLoop notSegmentMask (value >>> 7)
termination_by value
decreasing_by
  simp only [Nat.shiftRight_eq_div_pow]
  refine Nat.div_lt_self (Nat.pos_of_ne_zero fun hv => h ?_) (by norm_num)
  subst hv
  simp [Nat.zero_and]

/-- `VarInt::try_into_ctx` (`var.rs:46-65`): the value's 32-bit pattern
(`u32::from_ne_bytes(i32::to_ne_bytes)`) fed to the encode loop with mask
`!(SEGMENT_BITS as u32)`. -/
def VarInt.try_into_ctx (v : Int) : List Nat :=
  varEncodeLoop ((2 ^ 32 - 1) ^^^ SEGMENT_BITS) (patternOfInt 32 v)

/-- `VarLong::try_into_ctx` (`var.rs:105-124`). -/
def VarLong.try_into_ctx (v : Int) : List Nat :=
  varEncodeLoop ((2 ^ 64 - 1) ^^^ SEGMENT_BITS) (patternOfInt 64 v)

/-- Modelled from the spec (§4.2, Decode): sign-extend a `width`-bit field —
"if the extracted field's value is at or above the midpoint of its unsigned
range (2^25 for 26-bit fields, 2^11 for 12-bit fields), subtract the full
range (2^26 or 2^12 respectively) to recover the negative two's-complement
value". -/
def signExtend (width : Nat) (f : Nat) : Int :=
  if f < 2 ^ (width - 1) then (f : Int) else (f : Int) - 2 ^ width

/-- The partially accumulated decode value after reading the given bytes,
mirroring the accumulation steps of the decode loop (used to state what the
`TooBig` error carries). -/
def varPartialAux (W : Nat) : List Nat → Nat → Nat → Nat
  | [], value, _bytePosition => value
  | byte :: rest, value, bytePosition =>
      varPartialAux W rest (value ||| ((byte &&& SEGMENT_BITS) <<< bytePosition) % 2 ^ W)
        (bytePosition + 7)

def varPartial (W : Nat) (bs : List Nat) : Nat := varPartialAux W bs 0 0

instance : DecidableEq (Except ScrollError (Int × Nat)) := fun a b =>
  match a, b with
  | .ok x, .ok y => decidable_of_iff (x = y) (by simp)
  | .error e, .error f => decidable_of_iff (e = f) (by simp)
  | .ok _, .error _ => isFalse (by simp)
  | .error _, .ok _ => isFalse (by simp)

/-! ## Basic facts about the two's-complement casts -/

theorem patternOfInt_lt (W : Nat) (v : Int) : patternOfInt W v < 2 ^ W := by
  have h2 : (0 : Int) < ((2 ^ W : Nat) : Int) := by positivity
  have := Int.emod_lt_of_pos v (b := ((2 ^ W : Nat) : Int)) h2
  unfold patternOfInt
  omega

theorem patternOfInt_nonneg_int (W : Nat) (v : Int) :
    ((patternOfInt W v : Nat) : Int) = v % ((2 ^ W : Nat) : Int) := by
  have h2 : (0 : Int) < ((2 ^ W : Nat) : Int) := by positivity
  have := Int.emod_nonneg v (by omega : ((2 ^ W : Nat) : Int) ≠ 0)
  unfold patternOfInt
  omega

theorem intOfPattern32_patternOfInt {v : Int}
    (hlo : -(2 ^ 31) ≤ v) (hhi : v < 2 ^ 31) :
    intOfPattern 32 (patternOfInt 32 v) = v := by
  simp only [intOfPattern, patternOfInt]
  norm_num
  split <;> omega

theorem intOfPattern64_patternOfInt {v : Int}
    (hlo : -(2 ^ 63) ≤ v) (hhi : v < 2 ^ 63) :
    intOfPattern 64 (patternOfInt 64 v) = v := by
  simp only [intOfPattern, patternOfInt]
  norm_num
  split <;> omega

theorem patternOfInt32_intOfPattern {u : Nat} (hu : u < 2 ^ 32) :
    patternOfInt 32 (intOfPattern 32 u) = u := by
  simp only [intOfPattern, patternOfInt]
  norm_num
  split <;> omega

theorem patternOfInt64_intOfPattern {u : Nat} (hu : u < 2 ^ 64) :
    patternOfInt 64 (intOfPattern 64 u) = u := by
  simp only [intOfPattern, patternOfInt]
  norm_num
  split <;> omega

/-! ## Structure of the encode loop -/

theorem notSeg_testBit {W i : Nat} :
    ((2 ^ W - 1) ^^^ 127).testBit i = (decide (i < W) ^^ decide (i < 7)) := by
  rw [show (127 : Nat) = 2 ^ 7 - 1 by norm_num, Nat.testBit_xor,
    Nat.testBit_two_pow_sub_one, Nat.testBit_two_pow_sub_one]

theorem and_notSeg_eq_zero_iff {W u : Nat} (hW : 7 ≤ W) (hu : u < 2 ^ W) :
    u &&& ((2 ^ W - 1) ^^^ 127) = 0 ↔ u < 128 := by
  constructor
  · intro h
    by_contra hge
    have hge' : u ≥ 2 ^ 7 := by omega
    obtain ⟨i, hi7, hbit⟩ := Nat.ge_two_pow_implies_high_bit_true hge'
    have hiW : i < W := by
      by_contra hiW
      have : u < 2 ^ i := lt_of_lt_of_le hu (Nat.pow_le_pow_right (by norm_num) (by omega))
      simp [Nat.testBit_lt_two_pow this] at hbit
    have hb : (u &&& ((2 ^ W - 1) ^^^ 127)).testBit i = true := by
      rw [Nat.testBit_and, hbit, notSeg_testBit]
      simp [hiW, show ¬ i < 7 by omega]
    rw [h] at hb
    simp [Nat.zero_testBit] at hb
  · intro h
    apply Nat.eq_of_testBit_eq
    intro i
    rw [Nat.testBit_and, notSeg_testBit, Nat.zero_testBit]
    rcases Nat.lt_or_ge i 7 with hi | hi
    · simp [hi, show i < W by omega]
    · have : u < 2 ^ i := lt_of_lt_of_le (by omega : u < 2 ^ 7)
        (Nat.pow_le_pow_right (by norm_num) hi)
      simp [Nat.testBit_lt_two_pow this]

theorem or_128_eq {b : Nat} (hb : b < 128) : b ||| 128 = b + 128 := by
  have h := Nat.mul_add_lt_is_or (i := 7) (by omega : b < 2 ^ 7) 1
  norm_num at h
  rw [Nat.or_comm]
  omega

theorem byte_low_eq (u : Nat) : ((u &&& 255) &&& 127) ||| 128 = u % 128 + 128 := by
  rw [Nat.and_assoc, show (255 : Nat) &&& 127 = 127 by rfl,
    show (127 : Nat) = 2 ^ 7 - 1 by norm_num, Nat.and_pow_two_sub_one_eq_mod]
  exact or_128_eq (by omega : u % 2 ^ 7 < 128)

theorem varEncodeLoop_eq {W u : Nat} (hW : 7 ≤ W) (hu : u < 2 ^ W) :
    varEncodeLoop ((2 ^ W - 1) ^^^ SEGMENT_BITS) u =
      if u < 128 then [u]
      else (u % 128 + 128) :: varEncodeLoop ((2 ^ W - 1) ^^^ SEGMENT_BITS) (u / 128) := by
  have hseg : SEGMENT_BITS = 127 := rfl
  have hcont : CONTINUE_BIT = 128 := rfl
  rcases Nat.lt_or_ge u 128 with h | h
  · rw [varEncodeLoop, dif_pos (by rw [hseg]; exact (and_notSeg_eq_zero_iff hW hu).mpr h),
      if_pos h, show (255 : Nat) = 2 ^ 8 - 1 by norm_num,
      Nat.and_pow_two_sub_one_of_lt_two_pow (by omega : u < 2 ^ 8)]
  · rw [varEncodeLoop, dif_neg (by rw [hseg]; simp [and_notSeg_eq_zero_iff hW hu]; omega),
      if_neg (by omega)]
    rw [hseg, hcont, byte_low_eq, Nat.shiftRight_eq_div_pow]

theorem varEncodeLoop_length_pos {W u : Nat} (hW : 7 ≤ W) (hu : u < 2 ^ W) :
    1 ≤ (varEncodeLoop ((2 ^ W - 1) ^^^ SEGMENT_BITS) u).length := by
  rw [varEncodeLoop_eq hW hu]
  split <;> simp

theorem varEncodeLoop_length_le {W : Nat} (hW : 7 ≤ W) :
    ∀ n u, u < 2 ^ W → 1 ≤ n → u < 128 ^ n →
      (varEncodeLoop ((2 ^ W - 1) ^^^ SEGMENT_BITS) u).length ≤ n := by
  intro n
  induction n with
  | zero => omega
  | succ n ih =>
    intro u hu _ hun
    rw [varEncodeLoop_eq hW hu]
    split
    · simp
    · rename_i hge
      have hn : 1 ≤ n := by
        rcases Nat.eq_zero_or_pos n with h0 | h1
        · subst h0; simp at hun; omega
        · exact h1
      have hdiv : u / 128 < 128 ^ n := by
        rw [Nat.div_lt_iff_lt_mul (by norm_num)]
        calc u < 128 ^ (n + 1) := hun
          _ = 128 ^ n * 128 := by ring
      have := ih (u / 128) (lt_of_le_of_lt (Nat.div_le_self u 128) hu) hn hdiv
      simpa using this

theorem varEncodeLoop_lt_pow {W : Nat} (hW : 7 ≤ W) :
    ∀ u, u < 2 ^ W → u < 128 ^ (varEncodeLoop ((2 ^ W - 1) ^^^ SEGMENT_BITS) u).length := by
  intro u
  induction u using Nat.strong_induction_on with
  | _ u ih =>
    intro hu
    rw [varEncodeLoop_eq hW hu]
    split
    · rename_i h
      simpa using h
    · rename_i h
      have hrec := ih (u / 128) (Nat.div_lt_self (by omega) (by norm_num))
        (lt_of_le_of_lt (Nat.div_le_self u 128) hu)
      simp only [List.length_cons, pow_succ]
      calc u = 128 * (u / 128) + u % 128 := by omega
        _ < 128 * (128 ^ (varEncodeLoop ((2 ^ W - 1) ^^^ SEGMENT_BITS) (u / 128)).length) := by
            have := Nat.mod_lt u (y := 128) (by norm_num)
            omega
        _ = _ := by ring

theorem varEncodeLoop_minimal {W : Nat} (hW : 7 ≤ W) :
    ∀ u, u < 2 ^ W →
      (varEncodeLoop ((2 ^ W - 1) ^^^ SEGMENT_BITS) u).length = 1 ∨
      128 ^ ((varEncodeLoop ((2 ^ W - 1) ^^^ SEGMENT_BITS) u).length - 1) ≤ u := by
  intro u
  induction u using Nat.strong_induction_on with
  | _ u ih =>
    intro hu
    rw [varEncodeLoop_eq hW hu]
    split
    · left; simp
    · rename_i h
      right
      have hdu : u / 128 < 2 ^ W := lt_of_le_of_lt (Nat.div_le_self u 128) hu
      rcases ih (u / 128) (Nat.div_lt_self (by omega) (by norm_num)) hdu with h1 | h1
      · simp only [List.length_cons, h1]
        norm_num
        omega
      · simp only [List.length_cons, Nat.add_sub_cancel]
        have hlp := varEncodeLoop_length_pos hW hdu
        calc 128 ^ (varEncodeLoop ((2 ^ W - 1) ^^^ SEGMENT_BITS) (u / 128)).length
            = 128 * 128 ^ ((varEncodeLoop ((2 ^ W - 1) ^^^ SEGMENT_BITS) (u / 128)).length - 1) := by
              rw [← pow_succ']
              congr 1
              omega
          _ ≤ 128 * (u / 128) := by
              have := h1
              exact Nat.mul_le_mul_left 128 h1
          _ ≤ u := Nat.mul_div_le u 128

theorem varEncodeLoop_getD {W : Nat} (hW : 7 ≤ W) :
    ∀ u, u < 2 ^ W → ∀ i,
      (varEncodeLoop ((2 ^ W - 1) ^^^ SEGMENT_BITS) u).getD i 0 =
        if i + 1 < (varEncodeLoop ((2 ^ W - 1) ^^^ SEGMENT_BITS) u).length then
          u / 128 ^ i % 128 + 128
        else if i + 1 = (varEncodeLoop ((2 ^ W - 1) ^^^ SEGMENT_BITS) u).length then
          u / 128 ^ i
        else 0 := by
  intro u
  induction u using Nat.strong_induction_on with
  | _ u ih =>
    intro hu i
    rw [varEncodeLoop_eq hW hu]
    split
    · rename_i h
      match i with
      | 0 => simp
      | j + 1 => simp
    · rename_i h
      have hdu : u / 128 < 2 ^ W := lt_of_le_of_lt (Nat.div_le_self u 128) hu
      have hlp := varEncodeLoop_length_pos hW hdu
      match i with
      | 0 =>
        simp only [List.getD_cons_zero, List.length_cons, pow_zero, Nat.div_one]
        rw [if_pos (by omega)]
      | j + 1 =>
        simp only [List.getD_cons_succ, List.length_cons]
        rw [ih (u / 128) (Nat.div_lt_self (by omega) (by norm_num)) hdu j]
        have hdd : u / 128 / 128 ^ j = u / 128 ^ (j + 1) := by
          rw [Nat.div_div_eq_div_mul, pow_succ']
        rw [hdd]
        rcases Nat.lt_trichotomy (j + 1) (varEncodeLoop ((2 ^ W - 1) ^^^ SEGMENT_BITS) (u / 128)).length with hc | hc | hc
        · rw [if_pos hc, if_pos (by omega)]
        · rw [if_neg (by omega), if_pos hc, if_neg (by omega), if_pos (by omega)]
        · rw [if_neg (by omega), if_neg (by omega), if_neg (by omega), if_neg (by omega)]

/-! ## Decoding an encoded value (round-trip) -/

theorem and_128_of_lt {b : Nat} (hb : b < 128) : b &&& 128 = 0 := by
  apply Nat.eq_of_testBit_eq
  intro i
  rw [Nat.testBit_and, Nat.zero_testBit, show (128 : Nat) = 2 ^ 7 by norm_num,
    Nat.testBit_two_pow]
  rcases eq_or_ne 7 i with h | h
  · subst h
    simp [Nat.testBit_lt_two_pow (show b < 2 ^ 7 by omega)]
  · simp [h]

theorem and_128_of_ge {b : Nat} (hb : 128 ≤ b) (hb' : b < 256) : b &&& 128 ≠ 0 := by
  intro h
  have hb7 : (b &&& 128).testBit 7 = false := by
    rw [h]
    exact Nat.zero_testBit 7
  rw [Nat.testBit_and, show (128 : Nat) = 2 ^ 7 by norm_num, Nat.testBit_two_pow] at hb7
  simp [Nat.testBit_to_div_mod] at hb7
  omega

theorem cont_byte_low {b : Nat} (hb : b < 128) : (b + 128) &&& 127 = b := by
  rw [show (127 : Nat) = 2 ^ 7 - 1 by norm_num, Nat.and_pow_two_sub_one_eq_mod]
  omega

theorem varDecodeLoop_encode {W : Nat} (hW : 7 ≤ W) :
    ∀ u value bytePosition offset rest srcLen,
      value < 2 ^ bytePosition →
      u < 2 ^ (W - bytePosition) →
      bytePosition ≤ W →
      varDecodeLoop W srcLen
          (varEncodeLoop ((2 ^ W - 1) ^^^ SEGMENT_BITS) u ++ rest) value bytePosition offset =
        .ok (intOfPattern W (value + u * 2 ^ bytePosition),
          offset + (varEncodeLoop ((2 ^ W - 1) ^^^ SEGMENT_BITS) u).length) := by
  have hseg : SEGMENT_BITS = 127 := rfl
  have hcont : CONTINUE_BIT = 128 := rfl
  intro u
  induction u using Nat.strong_induction_on with
  | _ u ih =>
    intro value bytePosition offset rest srcLen hv hu hbp
    have huW : u < 2 ^ W :=
      lt_of_lt_of_le hu (Nat.pow_le_pow_right (by norm_num) (by omega))
    rw [varEncodeLoop_eq hW huW]
    rcases Nat.lt_or_ge u 128 with h | h
    · rw [if_pos h]
      have hshift : (u &&& 127) <<< bytePosition = u * 2 ^ bytePosition := by
        rw [show (127 : Nat) = 2 ^ 7 - 1 by norm_num,
          Nat.and_pow_two_sub_one_of_lt_two_pow (show u < 2 ^ 7 by omega),
          Nat.shiftLeft_eq]
      have hlt : u * 2 ^ bytePosition < 2 ^ W := by
        calc u * 2 ^ bytePosition < 2 ^ (W - bytePosition) * 2 ^ bytePosition :=
              mul_lt_mul_of_pos_right hu (by positivity)
          _ = 2 ^ W := by rw [← pow_add]; congr 1; omega
      have hor : value ||| u * 2 ^ bytePosition = value + u * 2 ^ bytePosition := by
        rw [Nat.or_comm, Nat.mul_comm,
          ← Nat.mul_add_lt_is_or hv u]
        omega
      simp only [List.cons_append, varDecodeLoop, hseg, hcont, hshift,
        Nat.mod_eq_of_lt hlt, hor, and_128_of_lt h, eq_self_iff_true, if_true,
        List.length_cons, List.length_nil, Nat.zero_add]
    · rw [if_neg (by omega)]
      have hm : u % 128 < 128 := Nat.mod_lt u (by norm_num)
      have hWbp : 7 < W - bytePosition := by
        by_contra hc
        have : (2 : Nat) ^ (W - bytePosition) ≤ 2 ^ 7 :=
          Nat.pow_le_pow_right (by norm_num) (by omega)
        omega
      have hshift : ((u % 128 + 128) &&& 127) <<< bytePosition = u % 128 * 2 ^ bytePosition := by
        rw [cont_byte_low hm, Nat.shiftLeft_eq]
      have hlt : u % 128 * 2 ^ bytePosition < 2 ^ W := by
        calc u % 128 * 2 ^ bytePosition < 2 ^ 7 * 2 ^ bytePosition :=
              mul_lt_mul_of_pos_right (by omega) (by positivity)
          _ = 2 ^ (bytePosition + 7) := by rw [← pow_add]; congr 1; omega
          _ ≤ 2 ^ W := Nat.pow_le_pow_right (by norm_num) (by omega)
      have hor : value ||| u % 128 * 2 ^ bytePosition = value + u % 128 * 2 ^ bytePosition := by
        rw [Nat.or_comm, Nat.mul_comm, ← Nat.mul_add_lt_is_or hv (u % 128)]
        omega
      have hrec := ih (u / 128) (Nat.div_lt_self (by omega) (by norm_num))
        (value + u % 128 * 2 ^ bytePosition) (bytePosition + 7) (offset + 1) rest srcLen
        (by
          calc value + u % 128 * 2 ^ bytePosition
              < 2 ^ bytePosition + 127 * 2 ^ bytePosition := by
                have hx : u % 128 * 2 ^ bytePosition ≤ 127 * 2 ^ bytePosition :=
                  Nat.mul_le_mul_right _ (by omega)
                omega
            _ = 2 ^ (bytePosition + 7) := by
                rw [pow_add, show (2 : Nat) ^ 7 = 128 from by norm_num]
                ring)
        (by
          rw [Nat.div_lt_iff_lt_mul (by norm_num : (0 : Nat) < 128)]
          calc u < 2 ^ (W - bytePosition) := hu
            _ = 2 ^ (W - (bytePosition + 7)) * 128 := by
                rw [show (128 : Nat) = 2 ^ 7 by norm_num, ← pow_add]
                congr 1
                omega)
        (by omega)
      have harith : value + u % 128 * 2 ^ bytePosition + u / 128 * 2 ^ (bytePosition + 7)
          = value + u * 2 ^ bytePosition := by
        have h128 : 128 * (u / 128) + u % 128 = u := Nat.div_add_mod u 128
        calc value + u % 128 * 2 ^ bytePosition + u / 128 * 2 ^ (bytePosition + 7)
            = value + (u % 128 + 128 * (u / 128)) * 2 ^ bytePosition := by
              rw [pow_add, show (2 : Nat) ^ 7 = 128 by norm_num]
              ring
          _ = value + u * 2 ^ bytePosition := by rw [show u % 128 + 128 * (u / 128) = u by omega]
      have hcbit : ¬ ((u % 128 + 128) &&& 128 = 0) := and_128_of_ge (by omega) (by omega)
      rw [harith] at hrec
      simp only [List.cons_append, varDecodeLoop, hseg, hcont, hshift,
        Nat.mod_eq_of_lt hlt, hor, if_neg hcbit,
        if_neg (show ¬ bytePosition + 7 ≥ W by omega), List.length_cons, List.append_eq]
      simp only [hseg] at hrec
      rw [hrec]
      simp only [Except.ok.injEq, Prod.mk.injEq, true_and]
      omega

/-! ## Arithmetic characterization of the Position codec -/

theorem intOfPattern32_small {u : Nat} (hu : u < 2 ^ 31) : intOfPattern 32 u = (u : Int) := by
  simp only [intOfPattern]
  norm_num
  split <;> omega

theorem patternOfInt64_cast {n : Nat} (hn : n < 2 ^ 64) :
    patternOfInt 64 ((n : Nat) : Int) = n := by
  simp only [patternOfInt]
  omega

theorem from_u64_arith {val : Nat} (hval : val < 2 ^ 64) :
    Position.from_u64 val =
      { x := signExtend 26 (val / 2 ^ 38),
        y := signExtend 12 (val % 2 ^ 12),
        z := signExtend 26 (val / 2 ^ 12 % 2 ^ 26) } := by
  have hx : val >>> 38 = val / 2 ^ 38 := Nat.shiftRight_eq_div_pow val 38
  have hy : val &&& 0xFFF = val % 2 ^ 12 := by
    rw [show (0xFFF : Nat) = 2 ^ 12 - 1 by norm_num, Nat.and_pow_two_sub_one_eq_mod]
  have hz : val >>> 12 &&& 0x3FFFFFF = val / 2 ^ 12 % 2 ^ 26 := by
    rw [Nat.shiftRight_eq_div_pow, show (0x3FFFFFF : Nat) = 2 ^ 26 - 1 by norm_num,
      Nat.and_pow_two_sub_one_eq_mod]
  have hxi : intOfPattern 32 (val / 2 ^ 38) = ((val / 2 ^ 38 : Nat) : Int) :=
    intOfPattern32_small (by omega)
  have hyi : intOfPattern 32 (val % 2 ^ 12) = ((val % 2 ^ 12 : Nat) : Int) :=
    intOfPattern32_small (by omega)
  have hzi : intOfPattern 32 (val / 2 ^ 12 % 2 ^ 26) = ((val / 2 ^ 12 % 2 ^ 26 : Nat) : Int) :=
    intOfPattern32_small (by omega)
  simp only [Position.from_u64, hx, hy, hz, hxi, hyi, hzi,
    show (2 <<< (25 - 1) : Nat) = 33554432 from rfl,
    show (2 <<< (26 - 1) : Nat) = 67108864 from rfl,
    show (2 <<< (11 - 1) : Nat) = 2048 from rfl,
    show (2 <<< (12 - 1) : Nat) = 4096 from rfl]
  rw [Position.mk.injEq]
  refine ⟨?_, ?_, ?_⟩ <;> (simp only [signExtend]; norm_num; split <;> split <;> omega)

theorem or_absorb_high {a r : Nat} (ha : a < 2 ^ 26) (hr : r < 2 ^ 32) :
    a * 2 ^ 38 ||| (2 ^ 64 - 2 ^ 32 + r) = 2 ^ 64 - 2 ^ 32 + r := by
  have hC : 2 ^ 64 - 2 ^ 32 + r = 2 ^ 32 * (2 ^ 32 - 1) ||| r := by
    rw [← Nat.mul_add_lt_is_or hr (2 ^ 32 - 1)]
    norm_num
  rw [hC]
  apply Nat.eq_of_testBit_eq
  intro i
  simp only [Nat.testBit_or]
  cases hb : Nat.testBit (a * 2 ^ 38) i with
  | false => simp
  | true =>
    rw [← Nat.shiftLeft_eq, Nat.testBit_shiftLeft] at hb
    have h38 : 38 ≤ i ∧ Nat.testBit a (i - 38) = true := by
      by_contra hc
      rcases Nat.lt_or_ge i 38 with h1 | h1
      · simp [show ¬ 38 ≤ i by omega] at hb
      · simp [h1] at hb
        exact hc ⟨h1, hb⟩
    have hi64 : i < 64 := by
      by_contra hge
      have hsmall : a < 2 ^ (i - 38) :=
        lt_of_lt_of_le ha (Nat.pow_le_pow_right (by norm_num) (by omega))
      rw [Nat.testBit_lt_two_pow hsmall] at h38
      simp at h38
    have ht2 : Nat.testBit (2 ^ 32 * (2 ^ 32 - 1)) i = true := by
      rw [Nat.mul_comm, ← Nat.shiftLeft_eq, Nat.testBit_shiftLeft,
        Nat.testBit_two_pow_sub_one]
      simp only [Bool.and_eq_true, decide_eq_true_eq]
      omega
    rw [ht2]
    simp

theorem to_u64_arith (p : Position) :
    Position.to_u64 p =
      if patternOfInt 32 p.z % 2 ^ 26 % 2 ^ 20 < 2 ^ 19 then
        patternOfInt 32 p.x % 2 ^ 26 * 2 ^ 38
          + patternOfInt 32 p.z % 2 ^ 26 % 2 ^ 20 * 2 ^ 12
          + patternOfInt 32 p.y % 2 ^ 12
      else
        2 ^ 64 - 2 ^ 32 + patternOfInt 32 p.z % 2 ^ 26 % 2 ^ 20 * 2 ^ 12
          + patternOfInt 32 p.y % 2 ^ 12 := by
  have hxm : patternOfInt 32 p.x &&& 0x3FFFFFF = patternOfInt 32 p.x % 2 ^ 26 := by
    rw [show (0x3FFFFFF : Nat) = 2 ^ 26 - 1 by norm_num, Nat.and_pow_two_sub_one_eq_mod]
  have hzm : patternOfInt 32 p.z &&& 0x3FFFFFF = patternOfInt 32 p.z % 2 ^ 26 := by
    rw [show (0x3FFFFFF : Nat) = 2 ^ 26 - 1 by norm_num, Nat.and_pow_two_sub_one_eq_mod]
  have hym : patternOfInt 32 p.y &&& 0xFFF = patternOfInt 32 p.y % 2 ^ 12 := by
    rw [show (0xFFF : Nat) = 2 ^ 12 - 1 by norm_num, Nat.and_pow_two_sub_one_eq_mod]
  have hxmlt : patternOfInt 32 p.x % 2 ^ 26 < 2 ^ 26 := Nat.mod_lt _ (by norm_num)
  have hzmlt : patternOfInt 32 p.z % 2 ^ 26 < 2 ^ 26 := Nat.mod_lt _ (by norm_num)
  have hymlt : patternOfInt 32 p.y % 2 ^ 12 < 2 ^ 12 := Nat.mod_lt _ (by norm_num)
  have hxterm : (patternOfInt 32 p.x % 2 ^ 26) <<< 38 % 2 ^ 64
      = patternOfInt 32 p.x % 2 ^ 26 * 2 ^ 38 := by
    rw [Nat.shiftLeft_eq, Nat.mod_eq_of_lt (by omega)]
  simp only [Position.to_u64, hxm, hzm, hym, hxterm]
  rcases Nat.lt_or_ge (patternOfInt 32 p.z % 2 ^ 26 % 2 ^ 20) (2 ^ 19) with hcase | hcase
  · rw [if_pos hcase]
    have hio : intOfPattern 32 ((patternOfInt 32 p.z % 2 ^ 26) <<< 12)
        = ((patternOfInt 32 p.z % 2 ^ 26 % 2 ^ 20 * 2 ^ 12 : Nat) : Int) := by
      simp only [intOfPattern, Nat.shiftLeft_eq]
      norm_num
      split <;> omega
    rw [hio, patternOfInt64_cast (by omega)]
    have hor1 : patternOfInt 32 p.x % 2 ^ 26 * 2 ^ 38
          ||| patternOfInt 32 p.z % 2 ^ 26 % 2 ^ 20 * 2 ^ 12
        = patternOfInt 32 p.x % 2 ^ 26 * 2 ^ 38
          + patternOfInt 32 p.z % 2 ^ 26 % 2 ^ 20 * 2 ^ 12 := by
      rw [Nat.mul_comm (patternOfInt 32 p.x % 2 ^ 26) (2 ^ 38),
        ← Nat.mul_add_lt_is_or (by omega) (patternOfInt 32 p.x % 2 ^ 26)]
    rw [hor1]
    have hsum : patternOfInt 32 p.x % 2 ^ 26 * 2 ^ 38
          + patternOfInt 32 p.z % 2 ^ 26 % 2 ^ 20 * 2 ^ 12
        = 2 ^ 12 * (patternOfInt 32 p.x % 2 ^ 26 * 2 ^ 26
            + patternOfInt 32 p.z % 2 ^ 26 % 2 ^ 20) := by ring
    rw [hsum, ← Nat.mul_add_lt_is_or hymlt
      (patternOfInt 32 p.x % 2 ^ 26 * 2 ^ 26 + patternOfInt 32 p.z % 2 ^ 26 % 2 ^ 20)]
  · rw [if_neg (by omega)]
    have hio : intOfPattern 32 ((patternOfInt 32 p.z % 2 ^ 26) <<< 12)
        = ((patternOfInt 32 p.z % 2 ^ 26 % 2 ^ 20 * 2 ^ 12 : Nat) : Int) - 2 ^ 32 := by
      simp only [intOfPattern, Nat.shiftLeft_eq]
      norm_num
      split <;> omega
    have hpat : patternOfInt 64 (((patternOfInt 32 p.z % 2 ^ 26 % 2 ^ 20 * 2 ^ 12 : Nat) : Int) - 2 ^ 32)
        = 2 ^ 64 - 2 ^ 32 + patternOfInt 32 p.z % 2 ^ 26 % 2 ^ 20 * 2 ^ 12 := by
      simp only [patternOfInt]
      omega
    rw [hio, hpat]
    have hor1 : patternOfInt 32 p.x % 2 ^ 26 * 2 ^ 38
          ||| (2 ^ 64 - 2 ^ 32 + patternOfInt 32 p.z % 2 ^ 26 % 2 ^ 20 * 2 ^ 12)
        = 2 ^ 64 - 2 ^ 32 + patternOfInt 32 p.z % 2 ^ 26 % 2 ^ 20 * 2 ^ 12 :=
      or_absorb_high hxmlt (by omega)
    rw [hor1]
    have hsum : 2 ^ 64 - 2 ^ 32 + patternOfInt 32 p.z % 2 ^ 26 % 2 ^ 20 * 2 ^ 12
        = 2 ^ 12 * (2 ^ 52 - 2 ^ 20 + patternOfInt 32 p.z % 2 ^ 26 % 2 ^ 20) := by
      have : patternOfInt 32 p.z % 2 ^ 26 % 2 ^ 20 < 2 ^ 20 := Nat.mod_lt _ (by norm_num)
      omega
    rw [hsum, ← Nat.mul_add_lt_is_or hymlt (2 ^ 52 - 2 ^ 20 + patternOfInt 32 p.z % 2 ^ 26 % 2 ^ 20)]

/-! ## Round-trip structure of the Position codec -/

theorem patternOfInt_signExtend26 {f : Nat} (hf : f < 2 ^ 26) :
    patternOfInt 32 (signExtend 26 f) % 2 ^ 26 = f := by
  simp only [signExtend, patternOfInt]
  norm_num
  split <;> omega

theorem patternOfInt_signExtend12 {f : Nat} (hf : f < 2 ^ 12) :
    patternOfInt 32 (signExtend 12 f) % 2 ^ 12 = f := by
  simp only [signExtend, patternOfInt]
  norm_num
  split <;> omega

theorem signExtend_range {w f : Nat} (hw : 1 ≤ w) (hf : f < 2 ^ w) :
    -(2 ^ (w - 1) : Int) ≤ signExtend w f ∧ signExtend w f < 2 ^ (w - 1) := by
  have h2 : (2 : Int) ^ w = 2 ^ (w - 1) * 2 := by
    rw [← pow_succ]
    congr 1
    omega
  have hApos : (0 : Int) < 2 ^ (w - 1) := by positivity
  have hfi : (f : Int) < 2 ^ w := by
    calc (f : Int) < ((2 ^ w : Nat) : Int) := by exact_mod_cast hf
      _ = 2 ^ w := by push_cast; rfl
  have hcast : ((2 ^ (w - 1) : Nat) : Int) = 2 ^ (w - 1) := by push_cast; rfl
  simp only [signExtend]
  split
  · rename_i h
    have hfA : (f : Int) < 2 ^ (w - 1) := by
      rw [← hcast]
      exact_mod_cast h
    constructor <;> omega
  · rename_i h
    have hfA : ¬ (f : Int) < 2 ^ (w - 1) := by
      rw [← hcast]
      exact_mod_cast h
    constructor <;> omega

theorem reencode_stable (p : Position) :
    Position.to_u64 (Position.from_u64 (Position.to_u64 p)) = Position.to_u64 p := by
  have harith := to_u64_arith p
  set xm := patternOfInt 32 p.x % 2 ^ 26 with hxm
  set zm := patternOfInt 32 p.z % 2 ^ 26 with hzm
  set ym := patternOfInt 32 p.y % 2 ^ 12 with hym
  have hxmlt : xm < 2 ^ 26 := hxm ▸ Nat.mod_lt _ (by norm_num)
  have hzmlt : zm < 2 ^ 26 := hzm ▸ Nat.mod_lt _ (by norm_num)
  have hymlt : ym < 2 ^ 12 := hym ▸ Nat.mod_lt _ (by norm_num)
  set z0 := zm % 2 ^ 20 with hz0
  have hz0lt : z0 < 2 ^ 20 := hz0 ▸ Nat.mod_lt _ (by norm_num)
  rcases Nat.lt_or_ge z0 (2 ^ 19) with hc | hc
  · rw [if_pos hc] at harith
    rw [harith]
    have ht64 : xm * 2 ^ 38 + z0 * 2 ^ 12 + ym < 2 ^ 64 := by omega
    rw [from_u64_arith ht64]
    have hdx : (xm * 2 ^ 38 + z0 * 2 ^ 12 + ym) / 2 ^ 38 = xm := by omega
    have hdy : (xm * 2 ^ 38 + z0 * 2 ^ 12 + ym) % 2 ^ 12 = ym := by omega
    have hdz : (xm * 2 ^ 38 + z0 * 2 ^ 12 + ym) / 2 ^ 12 % 2 ^ 26 = z0 := by omega
    rw [hdx, hdy, hdz, to_u64_arith]
    dsimp only
    rw [patternOfInt_signExtend26 hxmlt, patternOfInt_signExtend12 hymlt,
      patternOfInt_signExtend26 (by omega : z0 < 2 ^ 26), if_pos (by omega)]
    omega
  · rw [if_neg (by omega)] at harith
    rw [harith]
    have ht64 : 2 ^ 64 - 2 ^ 32 + z0 * 2 ^ 12 + ym < 2 ^ 64 := by omega
    rw [from_u64_arith ht64]
    have hdx : (2 ^ 64 - 2 ^ 32 + z0 * 2 ^ 12 + ym) / 2 ^ 38 = 2 ^ 26 - 1 := by omega
    have hdy : (2 ^ 64 - 2 ^ 32 + z0 * 2 ^ 12 + ym) % 2 ^ 12 = ym := by omega
    have hdz : (2 ^ 64 - 2 ^ 32 + z0 * 2 ^ 12 + ym) / 2 ^ 12 % 2 ^ 26 = 2 ^ 26 - 2 ^ 20 + z0 := by
      omega
    rw [hdx, hdy, hdz, to_u64_arith]
    dsimp only
    rw [patternOfInt_signExtend26 (by omega : (2 : Nat) ^ 26 - 1 < 2 ^ 26),
      patternOfInt_signExtend12 hymlt,
      patternOfInt_signExtend26 (by omega : (2 : Nat) ^ 26 - 2 ^ 20 + z0 < 2 ^ 26),
      if_neg (by omega)]
    omega

/-! ## Decode-of-encode, instantiated -/

theorem varint_decode_encode (v : Int) :
    VarInt.try_from_ctx (VarInt.try_into_ctx v) =
      .ok (intOfPattern 32 (patternOfInt 32 v), (VarInt.try_into_ctx v).length) := by
  unfold VarInt.try_from_ctx VarInt.try_into_ctx
  have h := varDecodeLoop_encode (by norm_num : (7 : Nat) ≤ 32) (patternOfInt 32 v) 0 0 0 []
    (varEncodeLoop ((2 ^ 32 - 1) ^^^ SEGMENT_BITS) (patternOfInt 32 v) ++ []).length
    (by norm_num) (by simpa using patternOfInt_lt 32 v) (by norm_num)
  simpa using h

theorem varlong_decode_encode (v : Int) :
    VarLong.try_from_ctx (VarLong.try_into_ctx v) =
      .ok (intOfPattern 64 (patternOfInt 64 v), (VarLong.try_into_ctx v).length) := by
  unfold VarLong.try_from_ctx VarLong.try_into_ctx
  have h := varDecodeLoop_encode (by norm_num : (7 : Nat) ≤ 64) (patternOfInt 64 v) 0 0 0 []
    (varEncodeLoop ((2 ^ 64 - 1) ^^^ SEGMENT_BITS) (patternOfInt 64 v) ++ []).length
    (by norm_num) (by simpa using patternOfInt_lt 64 v) (by norm_num)
  simpa using h

/-! ## Claim theorems -/

/-- C1 (code_bug evidence): the Position round-trip `from_u64 (to_u64 p) = p`
fails on the code at the in-range input (x, y, z) = (-1560, -333, -9696) — the
source's own negative-coordinate test input (`position.rs:55`, whose test is
annotated as failing). Each coordinate is inside the packed-format range, yet
decoding the encoding yields (-1, -333, -9696). -/
theorem position_roundtrip_fails_on_test_input :
    (-(2 ^ 25) ≤ (-1560 : Int) ∧ (-1560 : Int) < 2 ^ 25) ∧
    (-(2 ^ 11) ≤ (-333 : Int) ∧ (-333 : Int) < 2 ^ 11) ∧
    (-(2 ^ 25) ≤ (-9696 : Int) ∧ (-9696 : Int) < 2 ^ 25) ∧
    Position.from_u64 (Position.to_u64 ⟨-1560, -333, -9696⟩) = ⟨-1, -333, -9696⟩ ∧
    Position.from_u64 (Position.to_u64 ⟨-1560, -333, -9696⟩) ≠ ⟨-1560, -333, -9696⟩ := by
  decide

/-- C2 counterexample: the claim asserts that for every u64 whose x field
stores a value in [2^24, 2^25) the decoded coordinate differs from the stored
value; but at the u64 whose x field stores exactly 2^24 = 16777216 (and y = z
= 0), `from_u64` returns x = 16777216 unchanged — the threshold `2 << 25-1` =
2^25 equals the intended midpoint `1 << 25`, so no wrong sign-extension
occurs. -/
theorem from_u64_threshold_claim_counterexample :
    (2 ^ 24 ≤ (16777216 : Nat) ∧ (16777216 : Nat) < 2 ^ 25) ∧
    (16777216 <<< 38 : Nat) >>> 38 = 16777216 ∧
    Position.from_u64 (16777216 <<< 38) = ⟨16777216, 0, 0⟩ := by
  decide

/-- C2 amended: the comparison thresholds of `from_u64` — Rust `2 << 25-1`
(= `2 <<< 24`) for the 26-bit fields and `2 << 11-1` (= `2 <<< 10`) for the
12-bit field — are numerically equal to the intended midpoints `1 << 25` and
`1 << 11`, and `from_u64` performs the correct sign extension on every field
of every u64: each decoded coordinate is the stored field value when below
the midpoint, and the stored value minus the field's full range when at or
above it (`signExtend`, modelled from the spec's decode description). -/
theorem from_u64_sign_extension_correct {val : Nat} (hval : val < 2 ^ 64) :
    (2 <<< (25 - 1) : Nat) = 1 <<< 25 ∧ (2 <<< (11 - 1) : Nat) = 1 <<< 11 ∧
    Position.from_u64 val =
      { x := signExtend 26 (val / 2 ^ 38),
        y := signExtend 12 (val % 2 ^ 12),
        z := signExtend 26 (val / 2 ^ 12 % 2 ^ 26) } :=
  ⟨by decide, by decide, from_u64_arith hval⟩

/-- Witness for C2 amended, at the concrete input 2^64 - 1 (all fields at
their all-ones pattern, each decoding to -1). -/
theorem from_u64_sign_extension_correct_witness :
    ((2 <<< (25 - 1) : Nat) = 1 <<< 25 ∧ (2 <<< (11 - 1) : Nat) = 1 <<< 11 ∧
      Position.from_u64 18446744073709551615 =
        { x := signExtend 26 (18446744073709551615 / 2 ^ 38),
          y := signExtend 12 (18446744073709551615 % 2 ^ 12),
          z := signExtend 26 (18446744073709551615 / 2 ^ 12 % 2 ^ 26) }) ∧
    Position.from_u64 18446744073709551615 = ⟨-1, -1, -1⟩ :=
  ⟨from_u64_sign_extension_correct (by norm_num), by decide⟩

/-- C3 (code_bug evidence): `to_u64` does not implement the claimed
mask-shift-or packing. At the in-range input (x, y, z) = (0, 0, 524288)
(z = 2^19) the claimed formula gives ((0 % 2^26) * 2^38) ||| ((524288 % 2^26)
* 2^12) ||| (0 % 2^12) = 2^31, but the code computes the z term in 32-bit
arithmetic (`(z & 0x3FFFFFF) << 12` with `i32` operands) and then
sign-extends it to u64, yielding 0xFFFFFFFF80000000. -/
theorem to_u64_z_term_mispacked :
    (-(2 ^ 25) ≤ (524288 : Int) ∧ (524288 : Int) < 2 ^ 25) ∧
    ((0 % 2 ^ 26) * 2 ^ 38) ||| ((524288 % 2 ^ 26) * 2 ^ 12) ||| (0 % 2 ^ 12) = 2147483648 ∧
    Position.to_u64 ⟨0, 0, 524288⟩ = 18446744071562067968 ∧
    Position.to_u64 ⟨0, 0, 524288⟩ ≠
      ((0 % 2 ^ 26) * 2 ^ 38) ||| ((524288 % 2 ^ 26) * 2 ^ 12) ||| (0 % 2 ^ 12) := by
  decide

/-- C9: for every u64 input, the fields of `from_u64` lie in the
packed-format ranges: x and z in [-2^25, 2^25 - 1] and y in
[-2^11, 2^11 - 1]. -/
theorem from_u64_fields_in_range {val : Nat} (hval : val < 2 ^ 64) :
    (-(2 ^ 25) ≤ (Position.from_u64 val).x ∧ (Position.from_u64 val).x < 2 ^ 25) ∧
    (-(2 ^ 11) ≤ (Position.from_u64 val).y ∧ (Position.from_u64 val).y < 2 ^ 11) ∧
    (-(2 ^ 25) ≤ (Position.from_u64 val).z ∧ (Position.from_u64 val).z < 2 ^ 25) := by
  rw [from_u64_arith hval]
  dsimp only
  refine ⟨?_, ?_, ?_⟩
  · simpa using signExtend_range (by norm_num) (show val / 2 ^ 38 < 2 ^ 26 by omega)
  · simpa using signExtend_range (by norm_num) (show val % 2 ^ 12 < 2 ^ 12 by omega)
  · simpa using signExtend_range (by norm_num) (show val / 2 ^ 12 % 2 ^ 26 < 2 ^ 26 by omega)

/-- Witness for C9 at the concrete input 0x123456789ABCDEF0. -/
theorem from_u64_fields_in_range_witness :
    (-(2 ^ 25) ≤ (Position.from_u64 1311768467463790320).x ∧
      (Position.from_u64 1311768467463790320).x < 2 ^ 25) ∧
    (-(2 ^ 11) ≤ (Position.from_u64 1311768467463790320).y ∧
      (Position.from_u64 1311768467463790320).y < 2 ^ 11) ∧
    (-(2 ^ 25) ≤ (Position.from_u64 1311768467463790320).z ∧
      (Position.from_u64 1311768467463790320).z < 2 ^ 25) :=
  from_u64_fields_in_range (by norm_num)

/-- C4: decoding the encoding returns the original value together with
exactly the number of bytes the encoder wrote, for every i32 under the VarInt
codec and every i64 under the VarLong codec. -/
theorem var_roundtrip :
    (∀ v : Int, -(2 ^ 31) ≤ v → v < 2 ^ 31 →
      VarInt.try_from_ctx (VarInt.try_into_ctx v) =
        .ok (v, (VarInt.try_into_ctx v).length)) ∧
    (∀ v : Int, -(2 ^ 63) ≤ v → v < 2 ^ 63 →
      VarLong.try_from_ctx (VarLong.try_into_ctx v) =
        .ok (v, (VarLong.try_into_ctx v).length)) := by
  constructor
  · intro v h1 h2
    rw [varint_decode_encode v, intOfPattern32_patternOfInt h1 h2]
  · intro v h1 h2
    rw [varlong_decode_encode v, intOfPattern64_patternOfInt h1 h2]

/-- Witness for C4 at v = -1 (VarInt) and v = 128 (VarLong). -/
theorem var_roundtrip_witness :
    VarInt.try_from_ctx (VarInt.try_into_ctx (-1)) =
      .ok (-1, (VarInt.try_into_ctx (-1)).length) ∧
    VarLong.try_from_ctx (VarLong.try_into_ctx 128) =
      .ok (128, (VarLong.try_into_ctx 128).length) :=
  ⟨var_roundtrip.1 (-1) (by norm_num) (by norm_num),
   var_roundtrip.2 128 (by norm_num) (by norm_num)⟩

/-- C8: decode-then-reencode is stable for both codecs: re-encoding whatever
decode returns on an encoded input reproduces the original encoding (stated
for every Int input and every Position, with no range restriction). -/
theorem codec_reencode_stable :
    (∀ v : Int, (VarInt.try_from_ctx (VarInt.try_into_ctx v)).map
        (fun r => VarInt.try_into_ctx r.1) = .ok (VarInt.try_into_ctx v)) ∧
    (∀ v : Int, (VarLong.try_from_ctx (VarLong.try_into_ctx v)).map
        (fun r => VarLong.try_into_ctx r.1) = .ok (VarLong.try_into_ctx v)) ∧
    (∀ p : Position, Position.to_u64 (Position.from_u64 (Position.to_u64 p)) =
        Position.to_u64 p) := by
  refine ⟨?_, ?_, reencode_stable⟩
  · intro v
    rw [varint_decode_encode v]
    simp only [Except.map, VarInt.try_into_ctx]
    rw [patternOfInt32_intOfPattern (patternOfInt_lt 32 v)]
  · intro v
    rw [varlong_decode_encode v]
    simp only [Except.map, VarLong.try_into_ctx]
    rw [patternOfInt64_intOfPattern (patternOfInt_lt 64 v)]

/-- C10: decoding accepts non-canonical encodings within the width limit and
silently discards payload bits beyond the target width: [0x81, 0x00] decodes
as VarInt to (1, 2) (redundant zero-payload terminator accepted), a 5-byte
VarInt whose final byte carries payload above bit 31 decodes with the excess
dropped, yielding (-1, 5), and likewise for VarLong with a redundant
terminator and a 10-byte input with payload above bit 63. -/
theorem var_decode_noncanonical_accepts :
    VarInt.try_from_ctx [0x81, 0x00] = .ok (1, 2) ∧
    VarInt.try_from_ctx [0xFF, 0xFF, 0xFF, 0xFF, 0x7F] = .ok (-1, 5) ∧
    VarLong.try_from_ctx [0x81, 0x00] = .ok (1, 2) ∧
    VarLong.try_from_ctx [0xFF, 0xFF, 0xFF, 0xFF, 0xFF, 0xFF, 0xFF, 0xFF, 0xFF, 0x7F] =
      .ok (-1, 10) := by
  decide

/-- C7: VarLong boundary literals: i64::MAX encodes to eight 0xFF bytes then
0x7F (9 bytes), and i64::MIN encodes to nine 0x80 bytes then 0x01 (10 bytes
total). -/
theorem varlong_boundary_literals :
    VarLong.try_into_ctx 9223372036854775807 =
      [0xFF, 0xFF, 0xFF, 0xFF, 0xFF, 0xFF, 0xFF, 0xFF, 0x7F] ∧
    VarLong.try_into_ctx (-9223372036854775808) =
      [0x80, 0x80, 0x80, 0x80, 0x80, 0x80, 0x80, 0x80, 0x80, 0x01] := by
  constructor <;>
    (simp [VarLong.try_into_ctx, varEncodeLoop, patternOfInt, SEGMENT_BITS, CONTINUE_BIT]) <;>
    decide

/-- C6: both encoders emit least-significant 7-bit groups first, in the
minimum number of bytes the format admits: byte i holds group
`u / 128^i % 128` with the continuation bit set exactly on non-final bytes,
the length is in [1, 5] for VarInt and [1, 10] for VarLong, the value fits in
`length` groups and (unless the length is 1) does not fit in `length - 1`
groups (no redundant zero-payload continuation bytes); the spec's literal
examples hold. -/
theorem var_encode_canonical :
    (∀ v : Int,
      1 ≤ (VarInt.try_into_ctx v).length ∧
      (VarInt.try_into_ctx v).length ≤ 5 ∧
      patternOfInt 32 v < 128 ^ (VarInt.try_into_ctx v).length ∧
      ((VarInt.try_into_ctx v).length = 1 ∨
        128 ^ ((VarInt.try_into_ctx v).length - 1) ≤ patternOfInt 32 v) ∧
      ∀ i, (VarInt.try_into_ctx v).getD i 0 =
        if i + 1 < (VarInt.try_into_ctx v).length then
          patternOfInt 32 v / 128 ^ i % 128 + 128
        else if i + 1 = (VarInt.try_into_ctx v).length then
          patternOfInt 32 v / 128 ^ i
        else 0) ∧
    (∀ v : Int,
      1 ≤ (VarLong.try_into_ctx v).length ∧
      (VarLong.try_into_ctx v).length ≤ 10 ∧
      patternOfInt 64 v < 128 ^ (VarLong.try_into_ctx v).length ∧
      ((VarLong.try_into_ctx v).length = 1 ∨
        128 ^ ((VarLong.try_into_ctx v).length - 1) ≤ patternOfInt 64 v) ∧
      ∀ i, (VarLong.try_into_ctx v).getD i 0 =
        if i + 1 < (VarLong.try_into_ctx v).length then
          patternOfInt 64 v / 128 ^ i % 128 + 128
        else if i + 1 = (VarLong.try_into_ctx v).length then
          patternOfInt 64 v / 128 ^ i
        else 0) ∧
    (VarInt.try_into_ctx 0 = [0x00] ∧
     VarInt.try_into_ctx 127 = [0x7F] ∧
     VarInt.try_into_ctx 128 = [0x80, 0x01] ∧
     VarInt.try_into_ctx (-1) = [0xFF, 0xFF, 0xFF, 0xFF, 0x0F] ∧
     VarInt.try_into_ctx 2147483647 = [0xFF, 0xFF, 0xFF, 0xFF, 0x07]) := by
  refine ⟨fun v => ?_, fun v => ?_, ?_⟩
  · have hp := patternOfInt_lt 32 v
    exact ⟨varEncodeLoop_length_pos (by norm_num) hp,
      varEncodeLoop_length_le (by norm_num) 5 _ hp (by norm_num) (by omega),
      varEncodeLoop_lt_pow (by norm_num) _ hp,
      varEncodeLoop_minimal (by norm_num) _ hp,
      varEncodeLoop_getD (by norm_num) _ hp⟩
  · have hp := patternOfInt_lt 64 v
    exact ⟨varEncodeLoop_length_pos (by norm_num) hp,
      varEncodeLoop_length_le (by norm_num) 10 _ hp (by norm_num) (by omega),
      varEncodeLoop_lt_pow (by norm_num) _ hp,
      varEncodeLoop_minimal (by norm_num) _ hp,
      varEncodeLoop_getD (by norm_num) _ hp⟩
  · refine ⟨?_, ?_, ?_, ?_, ?_⟩ <;>
      (simp [VarInt.try_into_ctx, varEncodeLoop, patternOfInt, SEGMENT_BITS, CONTINUE_BIT]) <;>
      decide

/-- C5: an input whose leading bytes all carry the continuation bit past the
width limit (5 bytes for VarInt, 10 for VarLong — i.e. more groups than the
target width allows) decodes to a `TooBig` (SizeExceeded) error — never a
value — carrying the partially accumulated value (cast `as usize`) and the
total available input length. -/
theorem var_decode_size_exceeded :
    (∀ b0 b1 b2 b3 b4 : Nat, ∀ rest : List Nat,
      b0 &&& CONTINUE_BIT ≠ 0 → b1 &&& CONTINUE_BIT ≠ 0 → b2 &&& CONTINUE_BIT ≠ 0 →
      b3 &&& CONTINUE_BIT ≠ 0 → b4 &&& CONTINUE_BIT ≠ 0 →
      VarInt.try_from_ctx (b0 :: b1 :: b2 :: b3 :: b4 :: rest) =
        .error (.tooBig
          (patternOfInt 64 (intOfPattern 32 (varPartial 32 [b0, b1, b2, b3, b4])))
          (b0 :: b1 :: b2 :: b3 :: b4 :: rest).length)) ∧
    (∀ b0 b1 b2 b3 b4 b5 b6 b7 b8 b9 : Nat, ∀ rest : List Nat,
      b0 &&& CONTINUE_BIT ≠ 0 → b1 &&& CONTINUE_BIT ≠ 0 → b2 &&& CONTINUE_BIT ≠ 0 →
      b3 &&& CONTINUE_BIT ≠ 0 → b4 &&& CONTINUE_BIT ≠ 0 → b5 &&& CONTINUE_BIT ≠ 0 →
      b6 &&& CONTINUE_BIT ≠ 0 → b7 &&& CONTINUE_BIT ≠ 0 → b8 &&& CONTINUE_BIT ≠ 0 →
      b9 &&& CONTINUE_BIT ≠ 0 →
      VarLong.try_from_ctx (b0 :: b1 :: b2 :: b3 :: b4 :: b5 :: b6 :: b7 :: b8 :: b9 :: rest) =
        .error (.tooBig
          (patternOfInt 64 (intOfPattern 64
            (varPartial 64 [b0, b1, b2, b3, b4, b5, b6, b7, b8, b9])))
          (b0 :: b1 :: b2 :: b3 :: b4 :: b5 :: b6 :: b7 :: b8 :: b9 :: rest).length)) := by
  constructor
  · intro b0 b1 b2 b3 b4 rest h0 h1 h2 h3 h4
    simp [VarInt.try_from_ctx, varDecodeLoop, varPartial, varPartialAux, h0, h1, h2, h3, h4]
  · intro b0 b1 b2 b3 b4 b5 b6 b7 b8 b9 rest h0 h1 h2 h3 h4 h5 h6 h7 h8 h9
    simp [VarLong.try_from_ctx, varDecodeLoop, varPartial, varPartialAux,
      h0, h1, h2, h3, h4, h5, h6, h7, h8, h9]

/-- Witness for C5: five 0x80 bytes decode (VarInt) to the `TooBig` error
carrying accumulated value 0 and input length 5; ten 0x80 bytes likewise for
VarLong. -/
theorem var_decode_size_exceeded_witness :
    VarInt.try_from_ctx [0x80, 0x80, 0x80, 0x80, 0x80] =
      .error (.tooBig (patternOfInt 64 (intOfPattern 32 (varPartial 32 [0x80, 0x80, 0x80, 0x80, 0x80])))
        ([0x80, 0x80, 0x80, 0x80, 0x80] : List Nat).length) ∧
    VarLong.try_from_ctx [0x80, 0x80, 0x80, 0x80, 0x80, 0x80, 0x80, 0x80, 0x80, 0x80] =
      .error (.tooBig (patternOfInt 64 (intOfPattern 64
          (varPartial 64 [0x80, 0x80, 0x80, 0x80, 0x80, 0x80, 0x80, 0x80, 0x80, 0x80])))
        ([0x80, 0x80, 0x80, 0x80, 0x80, 0x80, 0x80, 0x80, 0x80, 0x80] : List Nat).length) :=
  ⟨var_decode_size_exceeded.1 0x80 0x80 0x80 0x80 0x80 []
      (by decide) (by decide) (by decide) (by decide) (by decide),
   var_decode_size_exceeded.2 0x80 0x80 0x80 0x80 0x80 0x80 0x80 0x80 0x80 0x80 []
      (by decide) (by decide) (by decide) (by decide) (by decide)
      (by decide) (by decide) (by decide) (by decide) (by decide)⟩

end Rustic
